import Mathlib

/-!
Verification of the co-citation network builder (build_network.py).

The file shallowly embeds the program: the reference normalizer
(normalize_cited_ref), the record parser (parse_wos_file), the graph
builder (build_cocitation_network), the edge-weight pruning stage of the
main script, and the year attribute handling of save_graph_to_graphml.
Strings are modelled over their character lists; Python regular
expressions are translated into explicit scans over those lists
(restricted to ASCII, which covers the Web-of-Science export format the
program consumes).  Python exceptions are modelled with Except.
-/

set_option maxRecDepth 8000

namespace BuildNetwork

/-- Python whitespace class (ASCII part of the regex class used by
re.sub and of str.strip): space, tab, newline, carriage return,
vertical tab, form feed. -/
def isWs (c : Char) : Bool :=
  c = ' ' || c = '\t' || c = '\n' || c = '\r' || c = '\x0b' || c = '\x0c'

/-- Python str.strip with no argument: drop whitespace at both ends. -/
def trimChars (l : List Char) : List Char :=
  ((l.dropWhile isWs).reverse.dropWhile isWs).reverse

/-- Python str.startswith, on character lists (first argument is the
candidate leading segment). -/
def startsWithL : List Char → List Char → Bool
  | [], _ => true
  | _ :: _, [] => false
  | c :: cs, d :: ds => c = d && startsWithL cs ds

/-- Python regex word character (ASCII part of the class used by the
word-boundary assertions in normalize_cited_ref). -/
def isWordChar (c : Char) : Bool := c.isAlphanum || c = '_'

/-- First two characters of a plausible year: 18, 19 or 20
(the alternation in the year-search regex of normalize_cited_ref). -/
def yearLead (a b : Char) : Bool :=
  (a = '1' && (b = '8' || b = '9')) || (a = '2' && b = '0')

/-- Scan for the leftmost word-bounded four-digit year token, as
re.search does for the year regex in normalize_cited_ref.  The first
argument carries the character just before the current position, for
the left word-boundary test. -/
def findYearAux : Option Char → List Char → Option (Char × Char × Char × Char)
  | prev, a :: b :: c :: d :: rest =>
    if (match prev with | none => true | some p => !isWordChar p)
        && yearLead a b && c.isDigit && d.isDigit
        && (match rest with | [] => true | e :: _ => !isWordChar e) then
      some (a, b, c, d)
    else
      findYearAux (some a) (b :: c :: d :: rest)
  | _, _ => none

/-- Year extraction of normalize_cited_ref: the first year-like token
found anywhere in the string, with the UNKNOWN_YEAR fallback. -/
def pyYear (s : List Char) : List Char :=
  match findYearAux none s with
  | some (a, b, c, d) => [a, b, c, d]
  | none => "UNKNOWN_YEAR".data

/-- Python str.split on a comma: always at least one segment, empty
segments preserved. -/
def splitComma : List Char → List (List Char)
  | [] => [[]]
  | c :: rest =>
    if c = ',' then
      [] :: splitComma rest
    else
      match splitComma rest with
      | [] => [[c]]
      | p :: ps => (c :: p) :: ps

/-- Replace every maximal whitespace run by a single space, as
re.sub of a whitespace-run pattern with a space does.  The flag records
whether the previous character was part of a run. -/
def collapseWsAux : Bool → List Char → List Char
  | _, [] => []
  | inRun, c :: rest =>
    if isWs c then
      if inRun then collapseWsAux true rest
      else ' ' :: collapseWsAux true rest
    else c :: collapseWsAux false rest

/-- re.sub of a whitespace-run pattern with a single space. -/
def collapseWs (l : List Char) : List Char := collapseWsAux false l

/-- Author normalization of normalize_cited_ref, applied to the first
comma segment: uppercase; the anonymous marker maps to ANONYMOUS;
otherwise periods are removed, ends are stripped and whitespace runs
are collapsed. -/
def pyAuthor (part0 : List Char) : List Char :=
  let raw := part0.map Char.toUpper
  if startsWithL "[ANONYMOUS]".data raw then "ANONYMOUS".data
  else collapseWs (trimChars (raw.filter (fun c => c ≠ '.')))

/-- Right word boundary after a marker token: end of string or a
non-word character. -/
def boundaryAfter (l : List Char) : Bool :=
  match l with
  | [] => true
  | c :: _ => !isWordChar c

/-- One of the marker tokens V, P, DOI, HTTP, WWW at the head of the
list, followed by a word boundary — the alternation of the
source-truncation regex of normalize_cited_ref. -/
def markerToken (l : List Char) : Bool :=
  (startsWithL "V".data l && boundaryAfter (l.drop 1))
  || (startsWithL "P".data l && boundaryAfter (l.drop 1))
  || (startsWithL "DOI".data l && boundaryAfter (l.drop 3))
  || (startsWithL "HTTP".data l && boundaryAfter (l.drop 4))
  || (startsWithL "WWW".data l && boundaryAfter (l.drop 3))

/-- re.split on the truncation pattern (comma, whitespace run, marker
token, word boundary), keeping the part before the leftmost match:
the marker token can only start at the first non-whitespace character
after the comma, since every token starts with a non-whitespace
character. -/
def truncAtMarker : List Char → List Char
  | [] => []
  | c :: rest =>
    if c = ',' &&
        (match rest with
         | d :: _ => isWs d && markerToken (rest.dropWhile isWs)
         | [] => false) then
      []
    else c :: truncAtMarker rest

/-- Python str.strip with the comma-space argument: drop commas and
spaces at both ends. -/
def stripCommaSpace (l : List Char) : List Char :=
  ((l.dropWhile (fun c => c = ',' || c = ' ')).reverse.dropWhile
      (fun c => c = ',' || c = ' ')).reverse

/-- Python str.join with a comma-space separator. -/
def joinCommaSpace : List (List Char) → List Char
  | [] => []
  | [p] => p
  | p :: ps => p ++ ',' :: ' ' :: joinCommaSpace ps

/-- normalize_cited_ref: year search, comma split, author and source
normalization, and the final author-and-year validity test.  None is
the rejection signal. -/
def normalize_cited_ref (ref : String) : Option String :=
  let s := trimChars ref.data
  let year := pyYear s
  match (splitComma s).map trimChars with
  | [] => none
  | p0 :: rest =>
    let author := pyAuthor p0
    let potential : List Char :=
      match rest with
      | [] => []
      | p1 :: rest2 =>
        if p1 = year then (joinCommaSpace rest2).map Char.toUpper
        else (joinCommaSpace (p1 :: rest2)).map Char.toUpper
    let source : List Char :=
      if potential.isEmpty then "UNKNOWN_SOURCE".data
      else
        let cleaned := stripCommaSpace (trimChars (truncAtMarker potential))
        if cleaned = year then "UNKNOWN_SOURCE".data
        else if cleaned.isEmpty then "UNKNOWN_SOURCE".data
        else collapseWs cleaned
    if author.isEmpty || year.isEmpty then none
    else some (String.mk (author ++ ',' :: ' ' :: (year ++ ',' :: ' ' :: source)))

end BuildNetwork

namespace BuildNetwork

/-- C1 counterexample: the normalizer does not map the spec's example
string to the canonical identity the claim promises — the author
initial is not kept with the author and the volume and page segments
are not stripped. -/
theorem C1_counterexample :
    normalize_cited_ref "Smith, J., 2010, Journal of X, V12, P34" ≠
      some "SMITH J, 2010, JOURNAL OF X" := by decide

/-- C1 amended: on the spec's example string the normalizer keeps only
the first comma segment as author (the initial J lands in the source
text), and the V12 and P34 segments survive because the truncation
regex requires a word boundary right after the marker letter, which
the digit defeats. -/
theorem C1_amended_value :
    normalize_cited_ref "Smith, J., 2010, Journal of X, V12, P34" =
      some "SMITH, 2010, J., 2010, JOURNAL OF X, V12, P34" := by decide


theorem splitComma_ne_nil (l : List Char) : splitComma l ≠ [] := by
  induction l with
  | nil => simp [splitComma]
  | cons c rest ih =>
    simp only [splitComma]
    split
    · simp
    · split <;> simp

theorem pyYear_ne_nil (s : List Char) : pyYear s ≠ [] := by
  rw [pyYear]
  split
  · simp
  · decide

/-- C10: the normalizer rejects exactly when the normalized author is
empty: the comma split always yields at least one segment, so the
no-segments rejection branch is unreachable, and the year is never
empty since it falls back to UNKNOWN_YEAR, so the author test is the
only source of rejection. -/
theorem C10_rejection_iff_author_empty (s : String) :
    splitComma (trimChars s.data) ≠ [] ∧
    pyYear (trimChars s.data) ≠ [] ∧
    (normalize_cited_ref s = none ↔
      pyAuthor (((splitComma (trimChars s.data)).map trimChars).headI) = []) := by
  refine ⟨splitComma_ne_nil _, pyYear_ne_nil _, ?_⟩
  obtain ⟨q, qs, hq⟩ := List.exists_cons_of_ne_nil (splitComma_ne_nil (trimChars s.data))
  have hy : (pyYear (trimChars s.data)).isEmpty = false := by
    have := pyYear_ne_nil (trimChars s.data)
    simpa [List.isEmpty_iff] using this
  by_cases ha : pyAuthor (trimChars q) = []
  · simp [normalize_cited_ref, hq, ha, hy]
  · simp [normalize_cited_ref, hq, ha, hy, List.isEmpty_iff]

/-- C10 witness: the empty string is rejected, by the characterization
applied at the empty input. -/
theorem C10_witness : normalize_cited_ref "" = none :=
  (C10_rejection_iff_author_empty "").2.2.mpr (by decide)

/-- Per-identity counter update, as one increment of a Python Counter
or defaultdict entry. -/
def bump {α : Type} [BEq α] (f : α → Nat) (x : α) : α → Nat :=
  fun y => if y == x then f y + 1 else f y

/-- Fold a family of increment groups into a counter, as the nested
publication and reference loops of build_cocitation_network do. -/
def tallyInto {α : Type} [BEq α] (groups : List (List α)) (f : α → Nat) : α → Nat :=
  groups.foldl (fun acc g => g.foldl bump acc) f

theorem foldl_bump_apply {α : Type} [BEq α] [LawfulBEq α] (l : List α) (f : α → Nat) (x : α) :
    (l.foldl bump f) x = f x + l.count x := by
  induction l generalizing f with
  | nil => simp
  | cons a t ih =>
    rw [List.foldl_cons, ih]
    simp only [bump, List.count_cons, beq_iff_eq]
    by_cases hxa : x = a
    · subst hxa; simp; omega
    · simp [hxa, Ne.symm hxa]

theorem tallyInto_apply {α : Type} [BEq α] [LawfulBEq α] (groups : List (List α))
    (f : α → Nat) (x : α) :
    tallyInto groups f x = f x + groups.flatten.count x := by
  induction groups generalizing f with
  | nil => simp [tallyInto]
  | cons g gs ih =>
    rw [tallyInto, List.foldl_cons]
    have hrec := ih (g.foldl bump f)
    rw [tallyInto] at hrec
    rw [hrec, foldl_bump_apply, List.flatten_cons, List.count_append]
    omega

/-- Normalized reference list of one publication: normalize every raw
cited-reference entry and drop rejections, as the reference loop of
build_cocitation_network does. -/
def normRefs (citedRefsRaw : List String) : List String :=
  citedRefsRaw.filterMap normalize_cited_ref

/-- cited_ref_counts of build_cocitation_network: one increment per
accepted normalized reference occurrence, over all publications.  A
publication is represented by its raw cited-reference list, the only
field the builder reads for counting. -/
def citedRefCounts (pubs : List (List String)) : String → Nat :=
  tallyInto (pubs.map normRefs) (fun _ => 0)

/-- itertools.combinations of size two: all index-ordered pairs. -/
def combinations2 {α : Type} : List α → List (α × α)
  | [] => []
  | x :: xs => (xs.map fun y => (x, y)) ++ combinations2 xs

/-- tuple(sorted(pair)): order the two identities, as the edge
canonicalization of build_cocitation_network does. -/
def sortPair (p : String × String) : String × String :=
  if p.2 < p.1 then (p.2, p.1) else p

/-- Canonicalized co-citation pairs generated by one publication. -/
def pubPairs (pub : List String) : List (String × String) :=
  (combinations2 (normRefs pub)).map sortPair

/-- cocitation_links of build_cocitation_network: one increment per
generated canonical pair, over all publications. -/
def cocitationLinks (pubs : List (List String)) : String × String → Nat :=
  tallyInto (pubs.map pubPairs) (fun _ => 0)

/-- freq node attribute of the built graph. -/
def nodeFreq (pubs : List (List String)) (r : String) : Nat := citedRefCounts pubs r

/-- Node membership in the built graph: identities with a positive
citation counter. -/
def isNode (pubs : List (List String)) (r : String) : Prop := nodeFreq pubs r ≠ 0

/-- weight edge attribute of the built graph (an integer count, stored
as a float by the code). -/
def edgeWeight (pubs : List (List String)) (e : String × String) : Nat := cocitationLinks pubs e

/-- Edge membership in the built graph: canonical pairs with a
positive co-citation counter. -/
def isEdge (pubs : List (List String)) (e : String × String) : Prop := edgeWeight pubs e ≠ 0

instance (pubs : List (List String)) (r : String) : Decidable (isNode pubs r) :=
  inferInstanceAs (Decidable (nodeFreq pubs r ≠ 0))

instance (pubs : List (List String)) (e : String × String) : Decidable (isEdge pubs e) :=
  inferInstanceAs (Decidable (edgeWeight pubs e ≠ 0))

theorem nodeFreq_eq_count (pubs : List (List String)) (r : String) :
    nodeFreq pubs r = ((pubs.map normRefs).flatten).count r := by
  rw [nodeFreq, citedRefCounts, tallyInto_apply]; omega

theorem edgeWeight_eq_count (pubs : List (List String)) (e : String × String) :
    edgeWeight pubs e = ((pubs.map pubPairs).flatten).count e := by
  rw [edgeWeight, cocitationLinks, tallyInto_apply]; omega

/-- Comparator modelled from the claim words only, for C2: the number
of citing publications whose normalized reference lists contain the
identity.  It is not part of the program. -/
def specCitingPubCount (pubs : List (List String)) (r : String) : Nat :=
  (pubs.filter (fun pub => r ∈ normRefs pub)).length

/-- C2 counterexample: one citing publication whose reference list
holds the same raw string twice gives that node frequency 2, while
only one citing publication contains the reference. -/
theorem C2_counterexample :
    nodeFreq [["A, 2000, J", "A, 2000, J"]] "A, 2000, J" = 2 ∧
    specCitingPubCount [["A, 2000, J", "A, 2000, J"]] "A, 2000, J" = 1 ∧
    nodeFreq [["A, 2000, J", "A, 2000, J"]] "A, 2000, J" ≠
      specCitingPubCount [["A, 2000, J", "A, 2000, J"]] "A, 2000, J" := by decide

/-- C2 amended: a node's frequency equals the number of accepted raw
reference-string occurrences normalizing to the node's identity,
summed over all citing publications; duplicates inside one reference
list each count, so it can exceed the number of citing publications. -/
theorem C2_amended_freq (pubs : List (List String)) (r : String) :
    nodeFreq pubs r = ((pubs.map normRefs).flatten).count r :=
  nodeFreq_eq_count pubs r

/-- Python str.split on a comma-space separator, leftmost and
non-overlapping, as node year extraction uses on the normalized
identity. -/
def splitCommaSpaceL : List Char → List (List Char)
  | [] => [[]]
  | ',' :: ' ' :: rest => [] :: splitCommaSpaceL rest
  | c :: rest =>
    match splitCommaSpaceL rest with
    | [] => [[c]]
    | p :: ps => (c :: p) :: ps

/-- Python str.isdigit for ASCII digits: nonempty and all digits. -/
def pyIsDigits (l : List Char) : Bool := !l.isEmpty && l.all Char.isDigit

/-- Year metadata stored for a node by build_cocitation_network: the
second comma-space segment of the normalized identity when it is all
digits, else the Python None. -/
def refYear (r : String) : Option String :=
  match splitCommaSpaceL r.data with
  | _ :: p1 :: _ => if pyIsDigits p1 then some (String.mk p1) else none
  | _ => none

/-- Year attribute written by save_graph_to_graphml: the Python str()
of the stored year metadata — a present year string is echoed, and the
Python None prints as the four-letter string None. -/
def graphmlYear (y : Option String) : String :=
  match y with
  | some s => s
  | none => "None"

/-- C6 counterexample: a publication citing a reference with no
extractable year produces a node whose year metadata is absent, and
the exported year attribute for it is the string None, not the empty
string. -/
theorem C6_counterexample :
    isNode [["Foo, Some Journal"]] "FOO, UNKNOWN_YEAR, SOME JOURNAL" ∧
    refYear "FOO, UNKNOWN_YEAR, SOME JOURNAL" = none ∧
    graphmlYear (refYear "FOO, UNKNOWN_YEAR, SOME JOURNAL") ≠ "" := by decide

/-- C6 amended: in the exported graph the year attribute is a string,
and for a node with no extracted year it is the string None — the
Python str() of the absent year metadata — rather than the empty
string. -/
theorem C6_amended_year (pubs : List (List String)) (r : String)
    (_hnode : isNode pubs r) (hy : refYear r = none) :
    graphmlYear (refYear r) = "None" := by
  rw [hy]; rfl

/-- C6 amended witness: the amended statement applied at the concrete
yearless publication. -/
theorem C6_amended_year_witness :
    graphmlYear (refYear "FOO, UNKNOWN_YEAR, SOME JOURNAL") = "None" :=
  C6_amended_year [["Foo, Some Journal"]] "FOO, UNKNOWN_YEAR, SOME JOURNAL"
    (by decide) (by decide)


theorem sortPair_eq_elim (p q : String × String) (h : sortPair p = sortPair q) :
    p = q ∨ p = (q.2, q.1) := by
  rcases p with ⟨p1, p2⟩
  rcases q with ⟨q1, q2⟩
  rw [sortPair, sortPair] at h
  split at h <;> split at h <;> simp_all [Prod.ext_iff]

/-- C7: a corpus of one publication whose reference list normalizes to
exactly three distinct canonical identities A, B, C gives a built
graph with exactly those three nodes, each with frequency one, and
exactly the three canonical pairwise edges, each with weight one. -/
theorem C7_weight_conservation (pub : List String) (A B C : String)
    (hn : normRefs pub = [A, B, C])
    (hab : A ≠ B) (hac : A ≠ C) (hbc : B ≠ C) :
    (∀ X, isNode [pub] X ↔ X ∈ [A, B, C]) ∧
    (nodeFreq [pub] A = 1 ∧ nodeFreq [pub] B = 1 ∧ nodeFreq [pub] C = 1) ∧
    (∀ e, isEdge [pub] e ↔ e ∈ [sortPair (A, B), sortPair (A, C), sortPair (B, C)]) ∧
    (edgeWeight [pub] (sortPair (A, B)) = 1 ∧ edgeWeight [pub] (sortPair (A, C)) = 1 ∧
      edgeWeight [pub] (sortPair (B, C)) = 1) ∧
    [sortPair (A, B), sortPair (A, C), sortPair (B, C)].Nodup := by
  have hflat : (([pub]).map normRefs).flatten = [A, B, C] := by simp [hn]
  have hfreq : ∀ X, nodeFreq [pub] X = List.count X [A, B, C] := by
    intro X; rw [nodeFreq_eq_count, hflat]
  have hpairs : (([pub]).map pubPairs).flatten =
      [sortPair (A, B), sortPair (A, C), sortPair (B, C)] := by
    simp [pubPairs, hn, combinations2]
  have hw : ∀ e, edgeWeight [pub] e =
      List.count e [sortPair (A, B), sortPair (A, C), sortPair (B, C)] := by
    intro e; rw [edgeWeight_eq_count, hpairs]
  have d1 : sortPair (A, B) ≠ sortPair (A, C) := by
    intro h; rcases sortPair_eq_elim _ _ h with h' | h' <;> simp_all [Prod.ext_iff]
  have d2 : sortPair (A, B) ≠ sortPair (B, C) := by
    intro h; rcases sortPair_eq_elim _ _ h with h' | h' <;> simp_all [Prod.ext_iff]
  have d3 : sortPair (A, C) ≠ sortPair (B, C) := by
    intro h; rcases sortPair_eq_elim _ _ h with h' | h' <;> simp_all [Prod.ext_iff]
  refine ⟨?_, ⟨?_, ?_, ?_⟩, ?_, ⟨?_, ?_, ?_⟩, ?_⟩
  · intro X
    rw [isNode, hfreq X]
    constructor
    · intro h
      by_contra hx
      exact h (List.count_eq_zero.mpr hx)
    · intro hx h
      exact List.count_eq_zero.mp h hx
  · rw [hfreq]; simp [List.count_cons, hab, hac]
  · rw [hfreq]; simp [List.count_cons, Ne.symm hab, hbc]
  · rw [hfreq]; simp [List.count_cons, Ne.symm hac, Ne.symm hbc]
  · intro e
    rw [isEdge, hw e]
    constructor
    · intro h
      by_contra hx
      exact h (List.count_eq_zero.mpr hx)
    · intro hx h
      exact List.count_eq_zero.mp h hx
  · rw [hw]; simp [List.count_cons, d1, d2]
  · rw [hw]; simp [List.count_cons, Ne.symm d1, d3]
  · rw [hw]; simp [List.count_cons, Ne.symm d2, Ne.symm d3]
  · simp [d1, d2, d3]

/-- C7 witness: the conservation statement applied at one concrete
publication citing three concrete references. -/
theorem C7_witness :
    nodeFreq [["AAA, 2001, JA", "BBB, 2002, JB", "CCC, 2003, JC"]] "AAA, 2001, JA" = 1 ∧
    edgeWeight [["AAA, 2001, JA", "BBB, 2002, JB", "CCC, 2003, JC"]]
      (sortPair ("AAA, 2001, JA", "BBB, 2002, JB")) = 1 :=
  ⟨(C7_weight_conservation ["AAA, 2001, JA", "BBB, 2002, JB", "CCC, 2003, JC"]
      "AAA, 2001, JA" "BBB, 2002, JB" "CCC, 2003, JC"
      (by decide) (by decide) (by decide) (by decide)).2.1.1,
   (C7_weight_conservation ["AAA, 2001, JA", "BBB, 2002, JB", "CCC, 2003, JC"]
      "AAA, 2001, JA" "BBB, 2002, JB" "CCC, 2003, JC"
      (by decide) (by decide) (by decide) (by decide)).2.2.2.1.1⟩

/-- Edge-weight pruning stage of the main script: collect the edges
whose weight is at most the threshold, then remove exactly the edges
with those endpoint keys from the graph. -/
def pruneLowWeightEdges (minWeight : Nat) (es : List ((String × String) × Nat)) :
    List ((String × String) × Nat) :=
  let edgesToRemove := (es.filter (fun e => e.2 ≤ minWeight)).map Prod.fst
  es.filter (fun e => e.1 ∉ edgesToRemove)

theorem keysNodupWeightEq (es : List ((String × String) × Nat))
    (hkeys : (es.map Prod.fst).Nodup) (e : String × String) (w w' : Nat)
    (h1 : (e, w) ∈ es) (h2 : (e, w') ∈ es) : w = w' := by
  induction es with
  | nil => cases h1
  | cons p t ih =>
    rw [List.map_cons, List.nodup_cons] at hkeys
    rcases List.mem_cons.mp h1 with h1 | h1 <;> rcases List.mem_cons.mp h2 with h2 | h2
    · rw [← h2] at h1
      exact congrArg Prod.snd h1
    · exfalso
      apply hkeys.1
      rw [← h1]
      exact List.mem_map.mpr ⟨(e, w'), h2, rfl⟩
    · exfalso
      apply hkeys.1
      rw [← h2]
      exact List.mem_map.mpr ⟨(e, w), h1, rfl⟩
    · exact ih hkeys.2 h1 h2

/-- C8: after the weight-threshold pruning stage an edge of the graph
survives exactly when its weight is strictly greater than the
threshold — every surviving edge has weight above the threshold and
every edge with weight at most the threshold is removed.  Edge keys of
a graph are pairwise distinct. -/
theorem C8_weight_threshold (minWeight : Nat) (es : List ((String × String) × Nat))
    (hkeys : (es.map Prod.fst).Nodup) (e : String × String) (w : Nat) :
    (e, w) ∈ pruneLowWeightEdges minWeight es ↔ (e, w) ∈ es ∧ minWeight < w := by
  simp only [pruneLowWeightEdges, List.mem_filter, decide_eq_true_eq]
  constructor
  · rintro ⟨hmem, hnk⟩
    refine ⟨hmem, ?_⟩
    by_contra hle
    push_neg at hle
    exact hnk (List.mem_map_of_mem Prod.fst (List.mem_filter.mpr ⟨hmem, by simpa using hle⟩))
  · rintro ⟨hmem, hlt⟩
    refine ⟨hmem, ?_⟩
    intro hk
    rcases List.mem_map.mp hk with ⟨⟨e', w'⟩, hin, hfst⟩
    rcases List.mem_filter.mp hin with ⟨hin', hw'⟩
    simp only at hfst
    cases hfst
    have hww : w = w' := keysNodupWeightEq es hkeys e w w' hmem hin'
    simp only [decide_eq_true_eq] at hw'
    omega

/-- C8 witness: with threshold one, the weight-two edge survives the
pruning and the weight-one edge is removed, by the characterization. -/
theorem C8_witness :
    (("A", "C"), 2) ∈ pruneLowWeightEdges 1 [(("A", "B"), 1), (("A", "C"), 2)] ∧
    (("A", "B"), 1) ∉ pruneLowWeightEdges 1 [(("A", "B"), 1), (("A", "C"), 2)] :=
  ⟨(C8_weight_threshold 1 [(("A", "B"), 1), (("A", "C"), 2)] (by decide)
      ("A", "C") 2).mpr ⟨by decide, by decide⟩,
   fun h => absurd ((C8_weight_threshold 1 [(("A", "B"), 1), (("A", "C"), 2)] (by decide)
      ("A", "B") 1).mp h).2 (by decide)⟩


/-- Value of one record field: a scalar string or an ordered list of
strings, the two shapes of Python dict values in parse_wos_file. -/
inductive FieldVal where
  | scalar (s : String)
  | listv (xs : List String)
deriving DecidableEq

/-- A publication record: an insertion-ordered mapping from field code
to field value, as the Python dict of parse_wos_file. -/
abbrev Record := List (String × FieldVal)

/-- Dict lookup. -/
def rget : Record → String → Option FieldVal
  | [], _ => none
  | (k, v) :: r, key => if k = key then some v else rget r key

/-- Dict update: replace in place, or append at the end for a new key,
preserving Python dict insertion order. -/
def rset : Record → String → FieldVal → Record
  | [], key, v => [(key, v)]
  | (k, w) :: r, key, v => if k = key then (key, v) :: r else (k, w) :: rset r key v

/-- List-typed field codes of parse_wos_file. -/
def listFields : List String := ["CR", "AU", "AF", "C1", "DE", "ID"]

/-- Accumulating string field codes of parse_wos_file. -/
def textFields : List String := ["AB", "TI"]

/-- Python str.isupper on a two-character string: at least one cased
character, and every cased character uppercase (ASCII letters are the
cased characters here). -/
def pyIsUpper2 (c0 c1 : Char) : Bool :=
  (c0.isAlpha || c1.isAlpha) && (!c0.isAlpha || c0.isUpper) && (!c1.isAlpha || c1.isUpper)

/-- Classification of one raw line by parse_wos_file: a field line or
a continuation line. -/
inductive LineClass where
  | field (code value : String)
  | continuation (value : String)
deriving DecidableEq

/-- The field-or-continuation test of parse_wos_file, applied to the
stripped line: a field line needs stripped length above three, the
third character a space, and the first two characters alphanumeric and
uppercase; its value is the trimmed remainder after the space.
Everything else is a continuation carrying the stripped line. -/
def classifyLine (original : String) : LineClass :=
  let t := trimChars original.data
  match t with
  | c0 :: c1 :: c2 :: c3 :: rest =>
    if c2 = ' ' && c0.isAlphanum && c1.isAlphanum && pyIsUpper2 c0 c1 then
      LineClass.field (String.mk [c0, c1]) (String.mk (trimChars (c3 :: rest)))
    else LineClass.continuation (String.mk t)
  | _ => LineClass.continuation (String.mk t)

/-- Mutable state of the parse_wos_file line loop: the finished
records, the record being built, and the field context for
continuation lines. -/
structure PState where
  pubs : List Record
  cur : Record
  curField : Option String
deriving DecidableEq

/-- Synthetic identity assigned at an end-of-record marker when the
accession field is absent: the MISSING_UT_ prefix followed by the
decimal count of records finished so far in this parse run. -/
def mkSyntheticUT (n : Nat) : String := "MISSING_UT_" ++ Nat.repr n

/-- End-of-record handling of parse_wos_file: when the current record
is nonempty, finalize it — assigning the synthetic identity when the
accession field is missing — and append it; reset the record and the
field context either way. -/
def finalizeER (st : PState) : PState :=
  if st.cur.isEmpty then { pubs := st.pubs, cur := [], curField := none }
  else
    let cur :=
      if (rget st.cur "UT").isNone then
        rset st.cur "UT" (FieldVal.scalar (mkSyntheticUT st.pubs.length))
      else st.cur
    { pubs := st.pubs ++ [cur], cur := [], curField := none }

/-- New-field handling of parse_wos_file: update the field context,
then append a new element for list fields (the Python append on an
already-scalar value would raise, modelled as the error), and
set or overwrite the scalar value for every other field. -/
def applyField (st : PState) (code value : String) : Except Unit PState :=
  let st' : PState := { st with curField := some code }
  if code ∈ listFields then
    match rget st'.cur code with
    | none => Except.ok { st' with cur := rset st'.cur code (FieldVal.listv [value]) }
    | some (FieldVal.listv xs) =>
        Except.ok { st' with cur := rset st'.cur code (FieldVal.listv (xs ++ [value])) }
    | some (FieldVal.scalar _) => Except.error ()
  else
    Except.ok { st' with cur := rset st'.cur code (FieldVal.scalar value) }

/-- Join the last element of a list-field value with a continuation
value, as the wrapped-line merge of parse_wos_file does. -/
def joinLast (xs : List String) (value : String) : List String :=
  match xs with
  | [] => []
  | [x] => [x ++ " " ++ value]
  | x :: rest => x :: joinLast rest value

/-- Continuation handling of parse_wos_file, conditioned on the field
context: for a list field, an indented line on an already-present
value adds a new element, otherwise a truthy value gets its last
element joined (the Python item assignment on a scalar there would
raise, modelled as the error) and a falsy or absent one is skipped;
for an accumulating string field the value grows by a space and the
continuation (the Python augmented assignment on a list value would
extend it with one-character strings); any other context discards the
line. -/
def applyCont (st : PState) (original value : String) : Except Unit PState :=
  match st.curField with
  | none => Except.ok st
  | some cf =>
    if cf ∈ listFields then
      if startsWithL "   ".data original.data && (rget st.cur cf).isSome then
        match rget st.cur cf with
        | some (FieldVal.listv xs) =>
            Except.ok { st with cur := rset st.cur cf (FieldVal.listv (xs ++ [value])) }
        | some (FieldVal.scalar _) => Except.error ()
        | none => Except.ok st
      else
        match rget st.cur cf with
        | some (FieldVal.listv xs) =>
            if xs.isEmpty then Except.ok st
            else Except.ok { st with cur := rset st.cur cf (FieldVal.listv (joinLast xs value)) }
        | some (FieldVal.scalar s) =>
            if s.isEmpty then Except.ok st else Except.error ()
        | none => Except.ok st
    else if cf ∈ textFields then
      match rget st.cur cf with
      | some (FieldVal.scalar s) =>
          Except.ok { st with cur := rset st.cur cf (FieldVal.scalar (s ++ " " ++ value)) }
      | some (FieldVal.listv xs) =>
          let extended := xs ++ (" " ++ value).data.map (fun ch => String.mk [ch])
          Except.ok { st with cur := rset st.cur cf (FieldVal.listv extended) }
      | none => Except.ok st
    else Except.ok st

/-- One iteration of the parse_wos_file line loop: skip blank lines;
the end-of-record test on the raw line or the stripped line; the
header-line branch with its unguarded index into the stripped line
(the IndexError on a stripped header shorter than three characters is
the error case); then field or continuation processing. -/
def processLine (st : PState) (original : String) : Except Unit PState :=
  let line := trimChars original.data
  if line.isEmpty then Except.ok st
  else if startsWithL "ER".data original.data || line = "ER".data then
    Except.ok (finalizeER st)
  else if startsWithL "FN".data original.data || startsWithL "VR".data original.data then
    match line with
    | c0 :: c1 :: c2 :: rest =>
      if c2 = ' ' then applyField st (String.mk [c0, c1]) (String.mk (trimChars rest))
      else Except.ok st
    | _ => Except.error ()
  else
    match classifyLine original with
    | LineClass.field code value => applyField st code value
    | LineClass.continuation value => applyCont st original value

/-- The parse_wos_file loop over all lines. -/
def scanLines : PState → List String → Except Unit PState
  | st, [] => Except.ok st
  | st, l :: ls =>
    match processLine st l with
    | Except.ok st' => scanLines st' ls
    | Except.error e => Except.error e

/-- Initial state of one parse run. -/
def initState : PState := { pubs := [], cur := [], curField := none }

/-- Scan of one file: the line loop, then the end-of-input retention
of a trailing nonempty record that carries an accession field. -/
def scanFile (ls : List String) : Except Unit (List Record) :=
  match scanLines initState ls with
  | Except.ok st =>
      Except.ok (if !st.cur.isEmpty && (rget st.cur "UT").isSome
                 then st.pubs ++ [st.cur] else st.pubs)
  | Except.error e => Except.error e

/-- parse_wos_file on already-decoded lines: the whole scan runs
inside the try block, and any exception makes the call return the
empty publication list. -/
def parse_wos_file (ls : List String) : List Record :=
  match scanFile ls with
  | Except.ok pubs => pubs
  | Except.error _ => []

/-- Field-line shape on the stripped line, stating the amended
classification: at least four stripped characters, the first two
alphanumeric and uppercase as a pair, the third a space; the code is
the first two characters and the value the trimmed nonempty
remainder. -/
def fieldLineShape (t : List Char) (code value : String) : Bool :=
  match t with
  | c0 :: c1 :: c2 :: rest =>
    !rest.isEmpty && c2 = ' ' && c0.isAlphanum && c1.isAlphanum && pyIsUpper2 c0 c1
      && String.mk [c0, c1] = code && String.mk (trimChars rest) = value
  | _ => false

/-- C3 counterexample: a raw line whose first two characters are an
uppercase field code immediately followed by a space but with nothing
after it is classified as a continuation line, not as a field line
with an empty value. -/
theorem C3_counterexample :
    classifyLine "TI " = LineClass.continuation "TI" ∧
    classifyLine "TI " ≠ LineClass.field "TI" "" := by decide

/-- C3 amended: a line is classified as a field line exactly when its
stripped form is at least four characters whose first two are
alphanumeric and uppercase as a pair and whose third is a space; the
code is those two characters and the value is the trimmed remainder,
which is then nonempty — all other lines are continuation lines. -/
theorem C3_amended_classification (original code value : String) :
    classifyLine original = LineClass.field code value ↔
      fieldLineShape (trimChars original.data) code value = true := by
  rw [classifyLine]
  generalize trimChars original.data = t
  rcases t with _ | ⟨c0, t⟩
  · simp [fieldLineShape]
  rcases t with _ | ⟨c1, t⟩
  · simp [fieldLineShape]
  rcases t with _ | ⟨c2, t⟩
  · simp [fieldLineShape]
  rcases t with _ | ⟨c3, rest⟩
  · simp [fieldLineShape]
  by_cases hcond : (c2 = ' ' && c0.isAlphanum && c1.isAlphanum && pyIsUpper2 c0 c1) = true
  · simp only [hcond, if_true, fieldLineShape]
    simp [Bool.and_eq_true] at hcond ⊢
    tauto
  · simp only [Bool.not_eq_true] at hcond
    simp [fieldLineShape, hcond]

/-- C3 amended witness: the characterization applied at one concrete
well-formed field line. -/
theorem C3_amended_witness : classifyLine "AB cd" = LineClass.field "AB" "cd" :=
  (C3_amended_classification "AB cd" "AB" "cd").mpr (by decide)

/-- C4: contrary to the claim, a header line consisting of only the
two-character code crashes the parse — the spacing test indexes the
third character of the stripped line, which does not exist, and the
exception handler then discards every record already accumulated for
the file; without the bare header line the same records are
returned. -/
theorem C4_bare_header_discards_all :
    parse_wos_file ["PT J", "UT WOS:000", "ER", "FN"] = [] ∧
    parse_wos_file ["PT J", "UT WOS:000", "ER"] =
      [[("PT", FieldVal.scalar "J"), ("UT", FieldVal.scalar "WOS:000")]] := by decide

/-- C5: when scanning the lines of a file raises, the parse of that
file returns exactly zero records, even though a prefix of the file
had already accumulated finished records. -/
theorem C5_exception_discards_records (ls1 ls2 : List String) (st : PState)
    (_hok : scanLines initState ls1 = Except.ok st)
    (_hacc : st.pubs ≠ [])
    (herr : scanFile (ls1 ++ ls2) = Except.error ()) :
    parse_wos_file (ls1 ++ ls2) = [] := by
  simp only [parse_wos_file, herr]

/-- C5 witness: a file whose first lines build one complete record and
whose last line raises yields zero records. -/
theorem C5_witness : parse_wos_file (["UT X", "ER"] ++ ["VR"]) = [] :=
  C5_exception_discards_records ["UT X", "ER"] ["VR"]
    { pubs := [[("UT", FieldVal.scalar "X")]], cur := [], curField := none }
    (by rfl) (by decide) (by rfl)


/-- Decimal value of a digit character. -/
def decDigitVal (c : Char) : Nat := c.toNat - 48

/-- Decimal value of a digit string. -/
def decDigits (l : List Char) : Nat := l.foldl (fun a c => 10 * a + decDigitVal c) 0

theorem decDigitVal_digitChar (d : Nat) (h : d < 10) :
    decDigitVal (Nat.digitChar d) = d := by
  interval_cases d <;> rfl

theorem decDigits_append_one (xs : List Char) (d : Char) :
    decDigits (xs ++ [d]) = 10 * decDigits xs + decDigitVal d := by
  rw [decDigits, List.foldl_append]
  rfl

theorem toDigitsCore_append (fuel : Nat) :
    ∀ (n : Nat) (acc : List Char),
      Nat.toDigitsCore 10 fuel n acc = Nat.toDigitsCore 10 fuel n [] ++ acc := by
  induction fuel with
  | zero => intro n acc; simp [Nat.toDigitsCore]
  | succ fuel ih =>
    intro n acc
    simp only [Nat.toDigitsCore]
    by_cases h : n / 10 = 0
    · simp [h]
    · simp only [h, if_false]
      rw [ih (n / 10) (Nat.digitChar (n % 10) :: acc), ih (n / 10) [Nat.digitChar (n % 10)]]
      simp

theorem decDigits_toDigitsCore (fuel : Nat) :
    ∀ n : Nat, n < fuel → decDigits (Nat.toDigitsCore 10 fuel n []) = n := by
  induction fuel with
  | zero => intro n h; omega
  | succ fuel ih =>
    intro n hn
    simp only [Nat.toDigitsCore]
    by_cases h : n / 10 = 0
    · simp only [h, if_true]
      simp [decDigits, decDigitVal_digitChar (n % 10) (by omega)]
      omega
    · simp only [h, if_false]
      rw [toDigitsCore_append, decDigits_append_one,
        ih (n / 10) (by omega), decDigitVal_digitChar (n % 10) (by omega)]
      omega

theorem natRepr_inj (i j : Nat) (h : Nat.repr i = Nat.repr j) : i = j := by
  have hd : Nat.toDigits 10 i = Nat.toDigits 10 j := by
    have hdata := congrArg String.data h
    simpa [Nat.repr, List.asString] using hdata
  rw [Nat.toDigits, Nat.toDigits] at hd
  have hi := decDigits_toDigitsCore (i + 1) i (Nat.lt_succ_self i)
  have hj := decDigits_toDigitsCore (j + 1) j (Nat.lt_succ_self j)
  rw [← hi, ← hj, hd]

theorem mkSyntheticUT_inj (i j : Nat) (h : mkSyntheticUT i = mkSyntheticUT j) : i = j := by
  apply natRepr_inj
  have hdata := congrArg String.data h
  simp only [mkSyntheticUT, String.data_append] at hdata
  exact String.ext (List.append_cancel_left hdata)

theorem rget_rset_self (r : Record) (k : String) (v : FieldVal) :
    rget (rset r k v) k = some v := by
  induction r with
  | nil => simp [rget, rset]
  | cons p t ih =>
    rcases p with ⟨k1, v1⟩
    rw [rset]
    by_cases hk : k1 = k
    · simp [hk, rget]
    · simp [hk, rget, ih]

theorem rget_rset_ne (r : Record) (k k' : String) (v : FieldVal) (h : k ≠ k') :
    rget (rset r k v) k' = rget r k' := by
  induction r with
  | nil => simp [rget, rset, h]
  | cons p t ih =>
    rcases p with ⟨k1, v1⟩
    rw [rset]
    by_cases hk : k1 = k
    · subst hk
      simp [rget, h]
    · simp [rget, hk, ih]

theorem startsWithL2 (x y : Char) (l : List Char) (h : startsWithL [x, y] l = true) :
    ∃ tl, l = x :: y :: tl := by
  match l with
  | [] => simp [startsWithL] at h
  | [d] => simp [startsWithL] at h
  | d0 :: d1 :: tl =>
    simp [startsWithL] at h
    exact ⟨tl, by rw [h.1, h.2]⟩

/-- The stripped form of a line whose first character is not
whitespace keeps that line's first two characters. -/
theorem trimChars_head2 (a b : Char) (tl : List Char) (ha : isWs a = false)
    (c0 c1 c2 : Char) (t2 : List Char)
    (h : trimChars (a :: b :: tl) = c0 :: c1 :: c2 :: t2) : c0 = a ∧ c1 = b := by
  rw [trimChars, List.dropWhile_cons, ha] at h
  simp only [Bool.false_eq_true, if_false] at h
  have hsuf : (a :: b :: tl).reverse.dropWhile isWs <:+ (a :: b :: tl).reverse :=
    List.dropWhile_suffix isWs
  have hpre : ((a :: b :: tl).reverse.dropWhile isWs).reverse <+:
      ((a :: b :: tl).reverse).reverse := List.reverse_prefix.mpr hsuf
  rw [List.reverse_reverse] at hpre
  rw [h] at hpre
  rcases hpre with ⟨t, ht⟩
  simp only [List.cons_append] at ht
  injection ht with h1 ht
  injection ht with h2 _
  exact ⟨h1, h2⟩

theorem listFields_ne_ut (cf : String) (h : cf ∈ listFields) : cf ≠ "UT" := by
  simp only [listFields, List.mem_cons, List.not_mem_nil, or_false] at h
  rcases h with rfl | rfl | rfl | rfl | rfl | rfl <;> decide

theorem textFields_ne_ut (cf : String) (h : cf ∈ textFields) : cf ≠ "UT" := by
  simp only [textFields, List.mem_cons, List.not_mem_nil, or_false] at h
  rcases h with rfl | rfl <;> decide

/-- The prefix that marks a synthetic identity. -/
def utMarker : List Char := "MISSING_UT_".data

/-- A record at output position i has an accession value, and when
that value carries the synthetic marker it is exactly the synthetic
identity for position i. -/
def recIdOk (i : Nat) (r : Record) : Prop :=
  ∃ u, rget r "UT" = some (FieldVal.scalar u) ∧
    (startsWithL utMarker u.data = true → u = mkSyntheticUT i)

/-- All finished records are well-identified for their positions. -/
def pubsInv (pubs : List Record) : Prop :=
  ∀ i r, pubs[i]? = some r → recIdOk i r

/-- The record under construction holds at most a genuine accession
value: a scalar that does not carry the synthetic marker. -/
def curInv (cur : Record) : Prop :=
  ∀ v, rget cur "UT" = some v →
    ∃ u, v = FieldVal.scalar u ∧ startsWithL utMarker u.data = false

/-- A line does not smuggle the synthetic marker in through a genuine
accession field line. -/
def lineSpoofFree (l : String) : Bool :=
  match classifyLine l with
  | LineClass.field c v => !(c = "UT" && startsWithL utMarker v.data)
  | LineClass.continuation _ => true

theorem pubsInv_append (pubs : List Record) (c : Record) (hp : pubsInv pubs)
    (hc : recIdOk pubs.length c) : pubsInv (pubs ++ [c]) := by
  intro i r hi
  rcases Nat.lt_trichotomy i pubs.length with hlt | heq | hgt
  · rw [List.getElem?_append_left hlt] at hi
    exact hp i r hi
  · subst heq
    rw [List.getElem?_append_right (Nat.le_refl _)] at hi
    simp at hi
    rw [← hi]
    exact hc
  · have hlen : (pubs ++ [c]).length ≤ i := by
      simp only [List.length_append, List.length_cons, List.length_nil]
      omega
    rw [List.getElem?_eq_none hlen] at hi
    cases hi


theorem applyField_inv (st : PState) (code value : String) (st' : PState)
    (h : applyField st code value = Except.ok st')
    (hsafe : code = "UT" → startsWithL utMarker value.data = false)
    (hc : curInv st.cur) : st'.pubs = st.pubs ∧ curInv st'.cur := by
  simp only [applyField] at h
  split at h
  · next hmem =>
    have hne : code ≠ "UT" := listFields_ne_ut code hmem
    split at h
    · cases h
      exact ⟨rfl, fun v hv => hc v (by rwa [rget_rset_ne _ _ _ _ hne] at hv)⟩
    · cases h
      exact ⟨rfl, fun v hv => hc v (by rwa [rget_rset_ne _ _ _ _ hne] at hv)⟩
    · cases h
  · by_cases hco : code = "UT"
    · subst hco
      cases h
      refine ⟨rfl, fun v hv => ?_⟩
      rw [rget_rset_self] at hv
      injection hv with hv
      exact ⟨value, hv.symm, hsafe rfl⟩
    · cases h
      exact ⟨rfl, fun v hv => hc v (by rwa [rget_rset_ne _ _ _ _ hco] at hv)⟩

theorem applyCont_inv (st : PState) (original value : String) (st' : PState)
    (h : applyCont st original value = Except.ok st')
    (hc : curInv st.cur) : st'.pubs = st.pubs ∧ curInv st'.cur := by
  simp only [applyCont] at h
  split at h
  · cases h
    exact ⟨rfl, hc⟩
  · rename_i cf hcf
    split at h
    · next hmem =>
      have hne : cf ≠ "UT" := listFields_ne_ut cf hmem
      split at h
      · split at h
        · cases h
          exact ⟨rfl, fun v hv => hc v (by rwa [rget_rset_ne _ _ _ _ hne] at hv)⟩
        · cases h
        · cases h
          exact ⟨rfl, hc⟩
      · split at h
        · split at h
          · cases h
            exact ⟨rfl, hc⟩
          · cases h
            exact ⟨rfl, fun v hv => hc v (by rwa [rget_rset_ne _ _ _ _ hne] at hv)⟩
        · split at h
          · cases h
            exact ⟨rfl, hc⟩
          · cases h
        · cases h
          exact ⟨rfl, hc⟩
    · split at h
      · next hmem2 =>
        have hne : cf ≠ "UT" := textFields_ne_ut cf hmem2
        split at h
        · cases h
          exact ⟨rfl, fun v hv => hc v (by rwa [rget_rset_ne _ _ _ _ hne] at hv)⟩
        · cases h
          exact ⟨rfl, fun v hv => hc v (by rwa [rget_rset_ne _ _ _ _ hne] at hv)⟩
        · cases h
          exact ⟨rfl, hc⟩
      · cases h
        exact ⟨rfl, hc⟩

theorem finalizeER_inv (st : PState) (hp : pubsInv st.pubs) (hc : curInv st.cur) :
    pubsInv (finalizeER st).pubs ∧ (finalizeER st).cur = [] := by
  rw [finalizeER]
  by_cases he : st.cur.isEmpty = true
  · rw [if_pos he]
    exact ⟨hp, rfl⟩
  · rw [if_neg he]
    rcases hrg : rget st.cur "UT" with _ | v
    · simp only [hrg, Option.isNone_none, if_true]
      refine ⟨pubsInv_append st.pubs _ hp ?_, by trivial⟩
      exact ⟨mkSyntheticUT st.pubs.length, rget_rset_self _ _ _, fun _ => rfl⟩
    · simp only [hrg, Option.isNone_some, Bool.false_eq_true, if_false]
      refine ⟨pubsInv_append st.pubs _ hp ?_, by trivial⟩
      obtain ⟨u, hu, hpre⟩ := hc v hrg
      subst hu
      refine ⟨u, hrg, fun hmark => ?_⟩
      rw [hpre] at hmark
      cases hmark

theorem processLine_inv (st : PState) (l : String) (st' : PState)
    (h : processLine st l = Except.ok st')
    (hsafe : lineSpoofFree l = true)
    (hp : pubsInv st.pubs) (hc : curInv st.cur) :
    pubsInv st'.pubs ∧ curInv st'.cur := by
  simp only [processLine] at h
  split at h
  · cases h
    exact ⟨hp, hc⟩
  · split at h
    · cases h
      obtain ⟨h1, h2⟩ := finalizeER_inv st hp hc
      refine ⟨h1, ?_⟩
      rw [h2]
      intro v hv
      simp [rget] at hv
    · split at h
      · next hfn =>
        split at h
        · next c0 c1 c2 rest heq =>
          split at h
          · have hcode : (c0 = 'F' ∧ c1 = 'N') ∨ (c0 = 'V' ∧ c1 = 'R') := by
              have hfn2 : startsWithL "FN".data l.data = true ∨
                  startsWithL "VR".data l.data = true := by simpa using hfn
              rcases hfn2 with hfn1 | hfn1
              · have hfd : "FN".data = ['F', 'N'] := rfl
                rw [hfd] at hfn1
                obtain ⟨tl, htl⟩ := startsWithL2 'F' 'N' l.data hfn1
                rw [htl] at heq
                exact Or.inl (trimChars_head2 'F' 'N' tl (by decide) c0 c1 c2 rest heq)
              · have hfd : "VR".data = ['V', 'R'] := rfl
                rw [hfd] at hfn1
                obtain ⟨tl, htl⟩ := startsWithL2 'V' 'R' l.data hfn1
                rw [htl] at heq
                exact Or.inr (trimChars_head2 'V' 'R' tl (by decide) c0 c1 c2 rest heq)
            have hne : String.mk [c0, c1] ≠ "UT" := by
              rcases hcode with ⟨rfl, rfl⟩ | ⟨rfl, rfl⟩ <;> decide
            obtain ⟨hpubs, hcur⟩ :=
              applyField_inv st _ _ st' h (fun hco => absurd hco hne) hc
            rw [hpubs]
            exact ⟨hp, hcur⟩
          · cases h
            exact ⟨hp, hc⟩
        · cases h
      · split at h
        · next code value hcl =>
          have hs : code = "UT" → startsWithL utMarker value.data = false := by
            intro hco
            subst hco
            rw [lineSpoofFree, hcl] at hsafe
            simpa using hsafe
          obtain ⟨hpubs, hcur⟩ := applyField_inv st code value st' h hs hc
          rw [hpubs]
          exact ⟨hp, hcur⟩
        · next value hcl =>
          obtain ⟨hpubs, hcur⟩ := applyCont_inv st l value st' h hc
          rw [hpubs]
          exact ⟨hp, hcur⟩

theorem scanLines_inv (ls : List String) :
    ∀ st st', scanLines st ls = Except.ok st' →
      (∀ l ∈ ls, lineSpoofFree l = true) →
      pubsInv st.pubs → curInv st.cur →
      pubsInv st'.pubs ∧ curInv st'.cur := by
  induction ls with
  | nil =>
    intro st st' h _ hp hc
    cases h
    exact ⟨hp, hc⟩
  | cons l ls ih =>
    intro st st' h hsafe hp hc
    rw [scanLines] at h
    rcases hpl : processLine st l with e | st1
    · rw [hpl] at h
      cases h
    · rw [hpl] at h
      obtain ⟨hp1, hc1⟩ :=
        processLine_inv st l st1 hpl (hsafe l (List.mem_cons_self l ls)) hp hc
      exact ih st1 st' h (fun x hx => hsafe x (List.mem_cons_of_mem l hx)) hp1 hc1

theorem scanFile_inv (ls : List String) (pubs : List Record)
    (h : scanFile ls = Except.ok pubs)
    (hsafe : ∀ l ∈ ls, lineSpoofFree l = true) : pubsInv pubs := by
  rw [scanFile] at h
  rcases hsc : scanLines initState ls with e | st
  · rw [hsc] at h
    cases h
  · rw [hsc] at h
    have h0p : pubsInv initState.pubs := by intro i r hi; simp [initState] at hi
    have h0c : curInv initState.cur := by intro v hv; simp [initState, rget] at hv
    obtain ⟨hp, hc⟩ := scanLines_inv ls initState st hsc hsafe h0p h0c
    cases h
    split
    · next hcond =>
      apply pubsInv_append st.pubs st.cur hp
      have hsome : (rget st.cur "UT").isSome = true := by
        simp only [Bool.and_eq_true] at hcond
        exact hcond.2
      rcases hrg : rget st.cur "UT" with _ | v
      · rw [hrg] at hsome
        cases hsome
      · obtain ⟨u, hu, hpre⟩ := hc v hrg
        subst hu
        refine ⟨u, hrg, fun hmark => ?_⟩
        rw [hpre] at hmark
        cases hmark
    · exact hp

/-- C9: under inputs whose genuine accession field lines do not start
with the synthetic marker, every record returned by the parser has an
accession value, and any two distinct records whose accession values
carry the synthetic marker — the synthetically identified records —
have different identities: synthetic identities are unique within the
parse run and distinguishable from genuine ones by the marker. -/
theorem C9_synthetic_identity (ls : List String)
    (hsafe : ∀ l ∈ ls, lineSpoofFree l = true) :
    (∀ r ∈ parse_wos_file ls, ∃ u, rget r "UT" = some (FieldVal.scalar u)) ∧
    (∀ (i j : Nat) (ri rj : Record) (ui uj : String),
      (parse_wos_file ls)[i]? = some ri → (parse_wos_file ls)[j]? = some rj →
      i ≠ j →
      rget ri "UT" = some (FieldVal.scalar ui) →
      rget rj "UT" = some (FieldVal.scalar uj) →
      startsWithL utMarker ui.data = true → startsWithL utMarker uj.data = true →
      ui ≠ uj) := by
  have hinv : pubsInv (parse_wos_file ls) := by
    rw [parse_wos_file]
    rcases hsf : scanFile ls with e | pubs
    · intro i r hi
      simp at hi
    · exact scanFile_inv ls pubs hsf hsafe
  constructor
  · intro r hr
    obtain ⟨i, hi⟩ := List.getElem?_of_mem hr
    obtain ⟨u, hu, _⟩ := hinv i r hi
    exact ⟨u, hu⟩
  · intro i j ri rj ui uj hi hj hij hui huj hmi hmj
    obtain ⟨u1, hu1, hm1⟩ := hinv i ri hi
    obtain ⟨u2, hu2, hm2⟩ := hinv j rj hj
    rw [hui] at hu1
    rw [huj] at hu2
    have e1 : u1 = ui := by
      have h' := hu1.symm
      simp only [Option.some.injEq, FieldVal.scalar.injEq] at h'
      exact h'
    have e2 : u2 = uj := by
      have h' := hu2.symm
      simp only [Option.some.injEq, FieldVal.scalar.injEq] at h'
      exact h'
    rw [e1] at hm1
    rw [e2] at hm2
    have hA := hm1 hmi
    have hB := hm2 hmj
    intro hcontra
    exact hij (mkSyntheticUT_inj i j (by rw [← hA, ← hB, hcontra]))

/-- C9 witness: on a file with two records both missing the accession
field, the two synthetic identities assigned by the parse run differ,
by the uniqueness statement applied at that input. -/
theorem C9_witness : ("MISSING_UT_0" : String) ≠ "MISSING_UT_1" :=
  (C9_synthetic_identity ["PT J", "ER", "PT C", "ER"] (by decide)).2 0 1
    [("PT", FieldVal.scalar "J"), ("UT", FieldVal.scalar "MISSING_UT_0")]
    [("PT", FieldVal.scalar "C"), ("UT", FieldVal.scalar "MISSING_UT_1")]
    "MISSING_UT_0" "MISSING_UT_1"
    (by decide) (by decide) (by decide) (by decide) (by decide) (by decide) (by decide)

end BuildNetwork
